import Mathlib

/-!
# Verification of the rackup backup tool (src/main.rs)

Shallow embedding of the rackup program's core logic:

* `is_newer` / `copy_decision` — the incremental copy decision
  (src/main.rs, `is_newer`, lines 137-155);
* `create_backup_file_path` — the path flattener
  (src/main.rs, lines 193-231), with Rust `Path` components modelled as an
  explicit component list and Rust `String` building modelled on `List Char`
  (Rust `String::push`/`push_str` are appends, `String::pop` drops the last
  character);
* the walker rules `gitignore_rule` and `exe_rule` and the rule chain that
  consumes them (src/main.rs, lines 53-102);
* the working-directory discipline of the gitignore rule's action
  (src/main.rs, lines 58-80), with the fallible system operations
  (`current_dir`, `set_current_dir`, process spawn) driven by explicit
  success/failure oracles;
* the per-entry copy loop of `perform_backup` (src/main.rs, lines 114-131).

Fallible operations are `Option`/`Except`; a Rust panic (`unwrap`) is `none`.
-/

/-- A Rust `OsString`/`OsStr`: either valid UTF-8 (so `to_str` succeeds) or
not (so `to_str` returns `None`). -/
inductive OsString where
  | valid (s : String)
  | invalid
deriving DecidableEq

/-- Rust's `OsStr::to_str`. -/
def osToStr : OsString → Option String
  | .valid s => some s
  | .invalid => none

/-- `o.to_str().unwrap_or("?")`, as used for UNC host/share names. -/
def osToStrQ (o : OsString) : String :=
  (osToStr o).getD "?"

/-- The kinds of Windows path prefixes (`std::path::Prefix`). A drive letter
is kept as a `Char` (the Rust code casts the `u8` with `as char`). -/
inductive PrefixKind where
  | verbatim (o : OsString)
  | verbatimUNC (host share : OsString)
  | verbatimDisk (letter : Char)
  | deviceNS (o : OsString)
  | unc (host share : OsString)
  | disk (letter : Char)
deriving DecidableEq

/-- `std::path::Component`. A path is modelled as the list of components that
Rust's `Path::components()` yields for it. -/
inductive Component where
  | pfx (p : PrefixKind)
  | rootDir
  | curDir
  | parentDir
  | normal (o : OsString)
deriving DecidableEq

/-- The contribution one component makes to `sub_path` in
`create_backup_file_path` (the body of the `for component in components`
loop, src/main.rs lines 200-223). `none` models the panic of
`c.to_str().unwrap()` on a non-UTF-8 normal component. -/
def renderComp : Component → Option (List Char)
  | .pfx (.verbatim _) => some []
  | .pfx (.deviceNS _) => some []
  | .pfx (.verbatimUNC h s) => some ((osToStrQ h).data ++ '/' :: (osToStrQ s).data)
  | .pfx (.unc h s) => some ((osToStrQ h).data ++ '/' :: (osToStrQ s).data)
  | .pfx (.verbatimDisk c) => some [c]
  | .pfx (.disk c) => some [c]
  | .rootDir => some ['/']
  | .normal o => (osToStr o).map (fun s => s.data ++ ['/'])
  | .curDir => some "unknown".data
  | .parentDir => some "unknown".data

/-- The whole loop of `create_backup_file_path`: concatenation of the
components' contributions (Rust builds `sub_path` by successive
`push`/`push_str`). `none` if any component panics. -/
def renderAll : List Component → Option (List Char)
  | [] => some []
  | c :: cs =>
    match renderComp c, renderAll cs with
    | some r, some rest => some (r ++ rest)
    | _, _ => none

/-- `sub_path` after the loop and the trailing `sub_path.pop()`
(src/main.rs line 226): Rust's `String::pop` removes the last character. -/
def flattenSubChars (cs : List Component) : Option (List Char) :=
  (renderAll cs).map List.dropLast

/-- Length of the Windows prefix of a path string: `2` for a leading
`X:` drive designator, else `0`. Used to model `PathBuf::push` on Windows,
which on being given a rooted-but-prefixless path keeps only the prefix of
`self`. -/
def winDriveLen (s : String) : Nat :=
  match s.data with
  | c :: ':' :: _ => if c.isAlpha then 2 else 0
  | _ => 0

/-- `PathBuf::push` (Windows semantics), restricted to pushed paths that do
not themselves carry a Windows prefix — which is the shape of every
`sub_path` this program builds. If the pushed path is empty nothing is
appended; if it has a root (leading separator) it replaces everything but
the prefix of `self`; otherwise it is appended, with a separator unless
`self` is empty or already ends in one. -/
def pathPush (base : String) (sub : String) : String :=
  if sub.data = [] then base
  else if sub.data.head? = some '/' then ⟨(base.data.take (winDriveLen base)) ++ sub.data⟩
  else if base.data = [] ∨ base.data.getLast? = some '/' then ⟨base.data ++ sub.data⟩
  else ⟨base.data ++ '/' :: sub.data⟩

/-- `create_backup_file_path` (src/main.rs lines 193-231): flatten the
source path's components into `sub_path` and push it onto the backup
directory path. `none` models the `unwrap` panic. -/
def create_backup_file_path (source_file_path : List Component) (backup_dir_path : String) :
    Option String :=
  (flattenSubChars source_file_path).map (fun sub => pathPush backup_dir_path ⟨sub⟩)

/-! ## The copy decision (`is_newer`, src/main.rs lines 137-155) -/

/-- The state of the backup-side node, as observed by `is_newer`:
absent (`exists()` false), present but not a regular file (`is_file()`
false), or a regular file whose modification timestamp could be read
(`some t`, with both `fs::metadata` and `metadata.modified()` succeeding)
or not (`none`, either read failing). -/
inductive BackupNode where
  | missing
  | notFile
  | file (modified : Option Nat)
deriving DecidableEq

/-- `is_newer(source_file, backup_file)` (src/main.rs lines 137-155).
`sourceModified` is the source file's modification timestamp as read through
`fs::metadata(..)` / `.modified()` (`none` if either read fails). -/
def is_newer (sourceModified : Option Nat) (backup : BackupNode) : Bool :=
  match backup with
  | .missing => true
  | .notFile => true
  | .file backupModified =>
    match sourceModified, backupModified with
    | some s, some b => decide (b < s)
    | _, _ => false

/-- The copy decision of the spec's BackupPlanner. -/
inductive CopyDecision where
  | copy
  | skip
deriving DecidableEq

/-- `perform_backup` copies exactly when `is_newer` holds
(src/main.rs line 117). -/
def copy_decision (sourceModified : Option Nat) (backup : BackupNode) : CopyDecision :=
  if is_newer sourceModified backup then .copy else .skip

/-! ## The per-entry copy loop (`perform_backup`, src/main.rs lines 114-131) -/

/-- One entry of the walker's output list, together with the backup-side
state its processing observes: the source path, the source and backup
timestamp state consulted by `is_newer`, and the outcome `copy_file` would
produce for it (`Except` because `copy_file` returns `io::Result`). -/
structure BackupEntry where
  path : String
  sourceModified : Option Nat
  backupNode : BackupNode
  copyResult : Except String Unit

/-- Console events emitted by the loop body: the success line or the
`Error copying {path}: {err}` report. -/
inductive LogEvent where
  | copied (path : String)
  | copyError (path : String) (err : String)
deriving DecidableEq

/-- The body of the `for source_file_path in source_files_list` loop
(src/main.rs lines 114-131): skip unless `is_newer`; otherwise copy and
report either success or the error. -/
def processEntry (e : BackupEntry) : List LogEvent :=
  if is_newer e.sourceModified e.backupNode then
    match e.copyResult with
    | .error err => [.copyError e.path err]
    | .ok _ => [.copied e.path]
  else []

/-- The whole loop of `perform_backup`: each entry is processed in order and
the loop never aborts early. -/
def perform_backup (entries : List BackupEntry) : List LogEvent :=
  (entries.map processEntry).flatten

/-! ## Claims C1, C6, C7 -/

/-- **C1.** The copy decision is `copy` exactly when no node exists at the
backup path, or a node exists but is not a regular file, or both
modification timestamps are readable and the source's is strictly greater
than the backup's; and whenever the backup exists as a regular file and the
source timestamp is equal to or less than the backup's, the decision is
`skip`. -/
theorem copy_decision_characterization (src : Option Nat) (b : BackupNode) :
    (copy_decision src b = .copy ↔
      b = .missing ∨ b = .notFile ∨
        ∃ s t, src = some s ∧ b = .file (some t) ∧ t < s) ∧
    (∀ s t, s ≤ t → copy_decision (some s) (.file (some t)) = .skip) := by
  constructor
  · cases b with
    | missing => simp [copy_decision, is_newer]
    | notFile => simp [copy_decision, is_newer]
    | file bm =>
      cases bm with
      | none =>
        cases src <;> simp [copy_decision, is_newer]
      | some t =>
        cases src with
        | none => simp [copy_decision, is_newer]
        | some s =>
          by_cases h : t < s <;> simp [copy_decision, is_newer, h]
  · intro s t hst
    simp [copy_decision, is_newer, Nat.not_lt.mpr hst]

theorem copy_decision_characterization_witness :
    copy_decision (some 5) (BackupNode.file (some 7)) = .skip :=
  (copy_decision_characterization (some 5) (.file (some 7))).2 5 7 (by decide)

/-- **C6.** If the backup counterpart exists as a regular file but either
modification timestamp cannot be read, the decision is `skip` (the model is
a total function: no error is raised or propagated). -/
theorem copy_decision_metadata_failure (src : Option Nat) (bm : Option Nat)
    (h : src = none ∨ bm = none) :
    copy_decision src (.file bm) = .skip := by
  rcases h with h | h
  · subst h; cases bm <;> simp [copy_decision, is_newer]
  · subst h; cases src <;> simp [copy_decision, is_newer]

theorem copy_decision_metadata_failure_witness :
    copy_decision none (.file (some 3)) = .skip :=
  copy_decision_metadata_failure none (some 3) (Or.inl rfl)

/-- **C7.** If `copy_file` fails for one entry of the walk's output, the
error is reported (entry name plus cause) and processing continues with the
remaining entries: the run's log is the log of the earlier entries, then the
error report, then the log of the later entries. -/
theorem perform_backup_error_continues (pre post : List BackupEntry)
    (e : BackupEntry) (err : String)
    (hnew : is_newer e.sourceModified e.backupNode = true)
    (herr : e.copyResult = .error err) :
    perform_backup (pre ++ e :: post) =
      perform_backup pre ++ .copyError e.path err :: perform_backup post := by
  simp [perform_backup, processEntry, hnew, herr]

theorem perform_backup_error_continues_witness :
    perform_backup
        [⟨"a.txt", some 0, .missing, .ok ()⟩,
         ⟨"b.txt", some 0, .missing, .error "denied"⟩,
         ⟨"c.txt", some 0, .missing, .ok ()⟩] =
      perform_backup [⟨"a.txt", some 0, .missing, .ok ()⟩] ++
        .copyError "b.txt" "denied" ::
          perform_backup [⟨"c.txt", some 0, .missing, .ok ()⟩] :=
  perform_backup_error_continues
    [⟨"a.txt", some 0, .missing, .ok ()⟩]
    [⟨"c.txt", some 0, .missing, .ok ()⟩]
    ⟨"b.txt", some 0, .missing, .error "denied"⟩ "denied" (by decide) rfl

/-! ## The rule chain and the two walker rules (src/main.rs lines 53-102)

The rules are constructed in `perform_backup`; the chain that consumes them
is supplied by the external walker library (`rebackup::walk`), so its
evaluation order is modelled from the spec (§4.2). -/

/-- `rebackup::WalkerRuleResult` (the variants this program produces). -/
inductive WalkerRuleResult where
  | includeItem
  | excludeItem
deriving DecidableEq

/-- `rebackup::WalkerItemType`. -/
inductive WalkerItemType where
  | file
  | directory
deriving DecidableEq, BEq

/-- One filesystem entry as seen by the rules, with the filesystem and
collaborator observations the rules consult: the entry's file name (its last
normal component), its walker item type, the result of `path.is_file()`, the
result of `path.ancestors().any(|p| p.join(".git").is_dir())`, whether the
`git check-ignore` invocation exits successfully, and the entry's
modification timestamp (consulted by no rule). -/
structure Entry where
  fileName : String
  kind : WalkerItemType
  pathIsFile : Bool
  hasGitAncestor : Bool
  gitCheckIgnoreSuccess : Bool
  modified : Option Nat

/-- `rebackup::WalkerRule`, restricted to the fields this program sets. -/
structure WalkerRule where
  only_for : Option WalkerItemType
  matchesPred : Entry → Bool
  action : Entry → WalkerRuleResult

/-- Modelled from the spec: the rule-chain evaluation performed by the
external walker library (`rebackup::walk`) on the rules this program
configures — "for the first rule whose `only_for` matches the entry's kind
and whose `matches(entry)` is true, calls `action(entry)` and returns its
Decision immediately (short-circuit — later rules are not consulted). If no
rule applies, returns Include." (§4.2). -/
def evalRuleChain : List WalkerRule → Entry → WalkerRuleResult
  | [], _ => .includeItem
  | r :: rs, e =>
    if (match r.only_for with
        | none => true
        | some t => decide (t = e.kind)) && r.matchesPred e
    then r.action e
    else evalRuleChain rs e

/-- The `gitignore` rule (src/main.rs lines 53-81): applies to entries with
a `.git`-directory ancestor; its action's verdict is `Exclude` exactly when
`git check-ignore` exits successfully. (The action's working-directory
manipulation and failure paths are modelled separately in
`gitignore_action` below; the verdict here is the one it returns when the
system operations succeed.) -/
def gitignore_rule : WalkerRule where
  only_for := none
  matchesPred := fun e => e.hasGitAncestor
  action := fun e => if e.gitCheckIgnoreSuccess then .excludeItem else .includeItem

/-- Splits a character list at its rightmost `'.'`: `some (before, after)`,
or `none` if it has no `'.'`. -/
def rsplitDot : List Char → Option (List Char × List Char)
  | [] => none
  | c :: rest =>
    match rsplitDot rest with
    | some (b, a) => some (c :: b, a)
    | none => if c = '.' then some ([], rest) else none

/-- Rust `Path::extension()` for a path whose file name is `name`: the part
after the rightmost `'.'`, unless there is no `'.'` or the part before it is
empty (names like `exe` or `.exe` yield `none`). -/
def path_extension (name : String) : Option String :=
  match rsplitDot name.data with
  | none => none
  | some (before, after) => if before.isEmpty then none else some ⟨after⟩

/-- The `noexe` rule (src/main.rs lines 83-99): applies only to files
(`only_for = File`, `matches = path.is_file()`); its action excludes the
entry exactly when `path.extension().unwrap_or("")` equals `"exe"`. -/
def exe_rule : WalkerRule where
  only_for := some .file
  matchesPred := fun e => e.pathIsFile
  action := fun e =>
    if (path_extension e.fileName).getD "" = "exe" then .excludeItem else .includeItem

/-- The rule list `perform_backup` configures: `vec![gitignore_rule, exe_rule]`
(src/main.rs line 102) — the gitignore rule is ordered first. -/
def rackupRules : List WalkerRule := [gitignore_rule, exe_rule]

/-! ## Claims C3, C9 -/

/-- **C3, counterexample.** The claim "for every file whose extension
case-sensitively equals `exe`, the rule chain's decision is Exclude" is
false on the code: the gitignore rule is ordered *before* the extension rule
and short-circuits the chain, so a file `x.exe` lying under a `.git`
repository that `git check-ignore` does not ignore is Included, even though
its extension is exactly `"exe"`. -/
theorem exe_rule_chain_counterexample :
    (path_extension "x.exe").getD "" = "exe" ∧
    evalRuleChain rackupRules
        ⟨"x.exe", .file, true, true, false, some 0⟩ = .includeItem := by
  constructor
  · rfl
  · rfl

/-- **C3, amended.** For every file whose extension case-sensitively equals
`exe` and to which no rule ordered before the extension rule applies (here:
no `.git`-directory ancestor, so the gitignore rule's `matches` is false),
the chain's decision is Exclude, regardless of the file's timestamp, of the
ignore-chain verdict, and of any rules ordered after the extension rule;
and a file named `x.Exe` (different case) is Included by the extension
rule. -/
theorem exe_rule_chain_excludes (later : List WalkerRule) (name : String)
    (g : Bool) (m m' : Option Nat)
    (hext : (path_extension name).getD "" = "exe") :
    evalRuleChain (rackupRules ++ later) ⟨name, .file, true, false, g, m⟩ =
        .excludeItem ∧
    exe_rule.action ⟨"x.Exe", .file, true, false, g, m'⟩ = .includeItem := by
  constructor
  · simp [rackupRules, evalRuleChain, gitignore_rule, exe_rule, hext]
  · rfl

theorem exe_rule_chain_excludes_witness :
    evalRuleChain (rackupRules ++ []) ⟨"x.exe", .file, true, false, true, some 4⟩ =
        .excludeItem ∧
    exe_rule.action ⟨"x.Exe", .file, true, false, true, none⟩ = .includeItem :=
  exe_rule_chain_excludes [] "x.exe" true (some 4) none (by decide)

/-- **C9.** For every file whose name yields no extension under the platform
extension rule (for example a file named exactly `exe` or exactly `.exe`),
the extension-blocklist rule treats the extension as empty and returns
Include, not Exclude. -/
theorem exe_rule_no_extension_includes (name : String) (k : WalkerItemType)
    (pf g gi : Bool) (m : Option Nat)
    (hext : path_extension name = none) :
    exe_rule.action ⟨name, k, pf, g, gi, m⟩ = .includeItem := by
  simp [exe_rule, hext]

theorem exe_rule_no_extension_includes_witness :
    exe_rule.action ⟨"exe", .file, true, false, false, some 0⟩ = .includeItem ∧
    exe_rule.action ⟨".exe", .file, true, false, false, some 0⟩ = .includeItem :=
  ⟨exe_rule_no_extension_includes "exe" .file true false false (some 0) (by decide),
   exe_rule_no_extension_includes ".exe" .file true false false (some 0) (by decide)⟩

/-! ## The gitignore action's working-directory discipline
(src/main.rs lines 58-80)

The action manipulates the one process-wide mutable resource, the current
working directory. The fallible system operations are driven by explicit
success oracles; `set_current_dir` leaves the working directory unchanged
when it fails. -/

/-- The observable outcome of one run of the gitignore rule's action:
its return value (`Err` for any `?`-propagated failure), the process
working directory after it returns, and whether execution reached the
`git check-ignore` invocation. -/
structure GitignoreRun where
  result : Except Unit WalkerRuleResult
  cwd : String
  invoked : Bool

/-- The gitignore rule's action (src/main.rs lines 58-80), step by step:
capture `cwd0 = env::current_dir()?`; if `dir` is a directory,
`env::set_current_dir(dir)?`, else if it has a parent,
`env::set_current_dir(parent)?`; run `git check-ignore` capturing its
result; `env::set_current_dir(cwd0)?`; then propagate the captured command
result (`Err` on spawn failure, `Exclude` on exit success, `Include`
otherwise).

Oracles: `currentDirOk`, `setOk`, `restoreOk` are the success of the three
system calls; `cmdResult` is `none` for a spawn failure and `some b` for an
invocation whose exit status has `success() = b`. `cwd0` is the working
directory at entry. -/
def gitignore_action (cwd0 dir parentDir : String) (dirIsDir hasParent : Bool)
    (currentDirOk setOk restoreOk : Bool) (cmdResult : Option Bool) : GitignoreRun :=
  if !currentDirOk then
    { result := .error (), cwd := cwd0, invoked := false }
  else
    let setAttempted := dirIsDir || hasParent
    let target := if dirIsDir then dir else parentDir
    if setAttempted && !setOk then
      { result := .error (), cwd := cwd0, invoked := false }
    else
      let cur := if setAttempted then target else cwd0
      if restoreOk then
        match cmdResult with
        | none => { result := .error (), cwd := cwd0, invoked := true }
        | some true => { result := .ok .excludeItem, cwd := cwd0, invoked := true }
        | some false => { result := .ok .includeItem, cwd := cwd0, invoked := true }
      else
        { result := .error (), cwd := cur, invoked := true }

/-! ## Claim C5 -/

/-- **C5, counterexample.** The claim "on every execution path of the
action that reaches the collaborator invocation, the working directory
observed by the caller afterwards equals the captured one" is false on the
code when the restoring `env::set_current_dir(cwd)?` itself fails: the
execution reached the invocation, but the caller observes the entry's
directory, not the original one. -/
theorem gitignore_restore_counterexample :
    (gitignore_action "/home/u" "/repo/sub" "/repo" true true true true false
        (some true)).invoked = true ∧
    (gitignore_action "/home/u" "/repo/sub" "/repo" true true true true false
        (some true)).cwd ≠ "/home/u" := by
  constructor
  · rfl
  · decide

/-- **C5, amended.** On every execution path of the action that reaches the
collaborator invocation — including the path where the invocation fails —
on which the final restoring `set_current_dir` call itself succeeds, the
working directory observed by the caller after the action returns equals
the one captured before the action changed it. -/
theorem gitignore_restores_cwd (cwd0 dir parentDir : String)
    (dirIsDir hasParent currentDirOk setOk restoreOk : Bool)
    (cmdResult : Option Bool)
    (hinv : (gitignore_action cwd0 dir parentDir dirIsDir hasParent
        currentDirOk setOk restoreOk cmdResult).invoked = true)
    (hres : restoreOk = true) :
    (gitignore_action cwd0 dir parentDir dirIsDir hasParent
        currentDirOk setOk restoreOk cmdResult).cwd = cwd0 := by
  subst hres
  cases currentDirOk with
  | false => simp [gitignore_action] at hinv
  | true =>
    cases cmdResult with
    | none =>
      simp [gitignore_action]
      split <;> rfl
    | some b =>
      cases b <;> (simp [gitignore_action]; split <;> rfl)

theorem gitignore_restores_cwd_witness :
    (gitignore_action "/home/u" "/repo/sub" "/repo" true true true true true
        none).cwd = "/home/u" :=
  gitignore_restores_cwd "/home/u" "/repo/sub" "/repo" true true true true true
    none (by decide) rfl

/-! ## Shapes of flattened paths (helpers for the path-flattener claims) -/

/-- A normal, valid-UTF-8 path component. -/
def mkNormal (s : String) : Component :=
  .normal (.valid s)

/-- Components of a drive-letter-rooted absolute path, e.g. `C:/a/b`. -/
def diskPath (c : Char) (ns : List String) : List Component :=
  .pfx (.disk c) :: .rootDir :: ns.map mkNormal

/-- Components of a UNC-share-rooted absolute path, e.g. `\\host\share\a`. -/
def uncPath (hn sn : String) (ns : List String) : List Component :=
  .pfx (.unc (.valid hn) (.valid sn)) :: .rootDir :: ns.map mkNormal

/-- Components of a verbatim-prefixed path, e.g. `\\?\v\a`. -/
def verbatimPath (v : OsString) (ns : List String) : List Component :=
  .pfx (.verbatim v) :: .rootDir :: ns.map mkNormal

/-- Components of a device-namespace-prefixed path, e.g. `\\.\v\a`. -/
def deviceNSPath (v : OsString) (ns : List String) : List Component :=
  .pfx (.deviceNS v) :: .rootDir :: ns.map mkNormal

/-- The loop's rendering of a run of normal components: each segment
followed by `'/'`. -/
def segsJoin (ns : List String) : List Char :=
  (ns.map (fun s => s.data ++ ['/'])).flatten

/-- `'/'`-intercalation of segments — the shape of `sub_path` after the
trailing separator is popped. -/
def interChars : List (List Char) → List Char
  | [] => []
  | s :: rest =>
    match rest with
    | [] => s
    | _ :: _ => s ++ '/' :: interChars rest

theorem interChars_nil : interChars [] = [] := rfl

theorem interChars_single (s : List Char) : interChars [s] = s := rfl

theorem interChars_cons₂ (s t : List Char) (rest : List (List Char)) :
    interChars (s :: t :: rest) = s ++ '/' :: interChars (t :: rest) := rfl

theorem renderAll_cons_some {c : Component} {cs : List Component} {r rest : List Char}
    (h1 : renderComp c = some r) (h2 : renderAll cs = some rest) :
    renderAll (c :: cs) = some (r ++ rest) := by
  simp [renderAll, h1, h2]

theorem renderAll_normals (ns : List String) :
    renderAll (ns.map mkNormal) = some (segsJoin ns) := by
  induction ns with
  | nil => rfl
  | cons s rest ih =>
    rw [List.map_cons]
    have h1 : renderComp (mkNormal s) = some (s.data ++ ['/']) := rfl
    have := renderAll_cons_some h1 ih
    rw [this]
    simp [segsJoin]

theorem segsJoin_cons_ne_nil (s : String) (ns : List String) :
    segsJoin (s :: ns) ≠ [] := by
  simp [segsJoin]

theorem dropLast_segsJoin (s : String) (ns : List String) :
    (segsJoin (s :: ns)).dropLast = interChars ((s :: ns).map String.data) := by
  induction ns generalizing s with
  | nil => simp [segsJoin, interChars]
  | cons s' rest ih =>
    have h1 : segsJoin (s :: s' :: rest) = (s.data ++ ['/']) ++ segsJoin (s' :: rest) := by
      simp [segsJoin]
    rw [h1, List.dropLast_append_of_ne_nil _ (segsJoin_cons_ne_nil s' rest), ih s']
    simp [interChars]

theorem flattenSub_disk (c : Char) (s : String) (ns : List String) :
    flattenSubChars (diskPath c (s :: ns)) =
      some (c :: '/' :: interChars ((s :: ns).map String.data)) := by
  have hns := renderAll_normals (s :: ns)
  rw [List.map_cons] at hns
  have h2 : renderAll (Component.rootDir :: mkNormal s :: ns.map mkNormal) =
      some (['/'] ++ segsJoin (s :: ns)) := renderAll_cons_some rfl hns
  have h1 : renderAll (diskPath c (s :: ns)) =
      some ([c] ++ (['/'] ++ segsJoin (s :: ns))) := by
    rw [diskPath, List.map_cons]
    exact renderAll_cons_some rfl h2
  rw [flattenSubChars, h1]
  show some (([c, '/'] ++ segsJoin (s :: ns)).dropLast) = _
  rw [List.dropLast_append_of_ne_nil _ (segsJoin_cons_ne_nil s ns), dropLast_segsJoin]
  rfl

theorem flattenSub_disk_nil (c : Char) :
    flattenSubChars (diskPath c []) = some [c] := rfl

theorem flattenSub_unc (hn sn : String) (s : String) (ns : List String) :
    flattenSubChars (uncPath hn sn (s :: ns)) =
      some ((hn.data ++ '/' :: sn.data) ++ '/' :: interChars ((s :: ns).map String.data)) := by
  have hns := renderAll_normals (s :: ns)
  rw [List.map_cons] at hns
  have h2 : renderAll (Component.rootDir :: mkNormal s :: ns.map mkNormal) =
      some (['/'] ++ segsJoin (s :: ns)) := renderAll_cons_some rfl hns
  have h1 : renderAll (uncPath hn sn (s :: ns)) =
      some ((hn.data ++ '/' :: sn.data) ++ (['/'] ++ segsJoin (s :: ns))) := by
    rw [uncPath, List.map_cons]
    exact renderAll_cons_some rfl h2
  rw [flattenSubChars, h1, Option.map_some', ← List.append_assoc,
    List.dropLast_append_of_ne_nil _ (segsJoin_cons_ne_nil s ns), dropLast_segsJoin,
    List.append_assoc]
  rfl

theorem flattenSub_verbatim (v : OsString) (s : String) (ns : List String) :
    flattenSubChars (verbatimPath v (s :: ns)) =
      some ('/' :: interChars ((s :: ns).map String.data)) := by
  have hns := renderAll_normals (s :: ns)
  rw [List.map_cons] at hns
  have h2 : renderAll (Component.rootDir :: mkNormal s :: ns.map mkNormal) =
      some (['/'] ++ segsJoin (s :: ns)) := renderAll_cons_some rfl hns
  have h1 : renderAll (verbatimPath v (s :: ns)) =
      some ([] ++ (['/'] ++ segsJoin (s :: ns))) := by
    rw [verbatimPath, List.map_cons]
    exact renderAll_cons_some rfl h2
  rw [flattenSubChars, h1]
  show some ((['/'] ++ segsJoin (s :: ns)).dropLast) = _
  rw [List.dropLast_append_of_ne_nil _ (segsJoin_cons_ne_nil s ns), dropLast_segsJoin]
  rfl

theorem flattenSub_deviceNS (v : OsString) (s : String) (ns : List String) :
    flattenSubChars (deviceNSPath v (s :: ns)) =
      some ('/' :: interChars ((s :: ns).map String.data)) := by
  have hns := renderAll_normals (s :: ns)
  rw [List.map_cons] at hns
  have h2 : renderAll (Component.rootDir :: mkNormal s :: ns.map mkNormal) =
      some (['/'] ++ segsJoin (s :: ns)) := renderAll_cons_some rfl hns
  have h1 : renderAll (deviceNSPath v (s :: ns)) =
      some ([] ++ (['/'] ++ segsJoin (s :: ns))) := by
    rw [deviceNSPath, List.map_cons]
    exact renderAll_cons_some rfl h2
  rw [flattenSubChars, h1]
  show some ((['/'] ++ segsJoin (s :: ns)).dropLast) = _
  rw [List.dropLast_append_of_ne_nil _ (segsJoin_cons_ne_nil s ns), dropLast_segsJoin]
  rfl

/-! ## Claim C4 -/

/-- **C4.** A drive-letter root flattens to exactly one leading segment — the
letter; a UNC root to exactly two leading segments — host then share; a
verbatim or device-namespace prefix to no segment; with every normal segment
appended in order after them. Flattening `C:/Users/bob/Documents/test.txt`
under backup root `C:/Users/bob/Backup` yields
`C:/Users/bob/Backup/C/Users/bob/Documents/test.txt`. -/
theorem flatten_root_shapes (c : Char) (hn sn : String) (v w : OsString)
    (s : String) (ns : List String) :
    flattenSubChars (diskPath c (s :: ns)) =
        some (c :: '/' :: interChars ((s :: ns).map String.data)) ∧
    flattenSubChars (uncPath hn sn (s :: ns)) =
        some ((hn.data ++ '/' :: sn.data) ++ '/' :: interChars ((s :: ns).map String.data)) ∧
    flattenSubChars (verbatimPath v (s :: ns)) =
        some ('/' :: interChars ((s :: ns).map String.data)) ∧
    flattenSubChars (deviceNSPath w (s :: ns)) =
        some ('/' :: interChars ((s :: ns).map String.data)) ∧
    create_backup_file_path (diskPath 'C' ["Users", "bob", "Documents", "test.txt"])
        "C:/Users/bob/Backup" =
      some "C:/Users/bob/Backup/C/Users/bob/Documents/test.txt" :=
  ⟨flattenSub_disk c s ns, flattenSub_unc hn sn s ns, flattenSub_verbatim v s ns,
   flattenSub_deviceNS w s ns, by decide⟩

/-! ## Claim C8 -/

theorem renderAll_none_of_mem {x : Component} (hx : renderComp x = none) :
    ∀ pre post : List Component, renderAll (pre ++ x :: post) = none := by
  intro pre post
  induction pre with
  | nil => simp [renderAll, hx]
  | cons c rest ih =>
    rw [List.cons_append, renderAll, ih]
    cases renderComp c <;> rfl

/-- **C8.** A source path containing a normal component that is not valid
UTF-8 makes `create_backup_file_path` panic (the `unwrap` of the component's
UTF-8 conversion — `none` in the model), wherever the component sits in the
path; whereas non-UTF-8 UNC host or share components are silently rendered
with the replacement segment `?` instead of panicking. -/
theorem flatten_invalid_utf8 (pre post : List Component) (root : String)
    (h sh : OsString) :
    create_backup_file_path (pre ++ .normal .invalid :: post) root = none ∧
    renderComp (.pfx (.unc .invalid sh)) =
        some ('?' :: '/' :: (osToStrQ sh).data) ∧
    renderComp (.pfx (.unc h .invalid)) =
        some ((osToStrQ h).data ++ '/' :: ['?']) ∧
    renderComp (.pfx (.verbatimUNC .invalid sh)) =
        some ('?' :: '/' :: (osToStrQ sh).data) ∧
    renderComp (.pfx (.verbatimUNC h .invalid)) =
        some ((osToStrQ h).data ++ '/' :: ['?']) := by
  refine ⟨?_, rfl, rfl, rfl, rfl⟩
  have hx : renderComp (.normal .invalid) = none := rfl
  rw [create_backup_file_path, flattenSubChars, renderAll_none_of_mem hx pre post]
  rfl

/-! ## Claim C2 -/

/-- **C2, counterexample.** The flattener is not injective across volumes:
the UNC-share-rooted path `\\C\x\` (host `C`, share `x`) and the
drive-rooted path `C:\x` are distinct absolute source paths with distinct
volume identity, yet they flatten to the same result under the same backup
root. -/
theorem flatten_collision_counterexample :
    create_backup_file_path [.pfx (.unc (.valid "C") (.valid "x")), .rootDir]
        "C:/Backup" =
      create_backup_file_path (diskPath 'C' ["x"]) "C:/Backup" ∧
    ([Component.pfx (.unc (.valid "C") (.valid "x")), .rootDir] : List Component) ≠
      diskPath 'C' ["x"] := by
  decide

/-- The tail of a flattened drive-rooted path after the drive letter. -/
def diskTail (ns : List String) : List Char :=
  match ns with
  | [] => []
  | s :: rest => '/' :: interChars ((s :: rest).map String.data)

theorem flattenSub_disk_tail (c : Char) (ns : List String) :
    flattenSubChars (diskPath c ns) = some (c :: diskTail ns) := by
  cases ns with
  | nil => exact flattenSub_disk_nil c
  | cons s rest => exact flattenSub_disk c s rest

/-- The base onto which a relative `sub_path` is appended by `pathPush`. -/
def pushBase (root : String) : List Char :=
  if root.data = [] ∨ root.data.getLast? = some '/' then root.data
  else root.data ++ ['/']

theorem pathPush_cons (root : String) (c : Char) (t : List Char) (hc : c ≠ '/') :
    (pathPush root ⟨c :: t⟩).data = pushBase root ++ c :: t := by
  have hne : (String.mk (c :: t)).data ≠ [] := by simp
  have hhd : (String.mk (c :: t)).data.head? ≠ some '/' := by
    simpa using hc
  rw [pathPush, if_neg hne, if_neg hhd, pushBase]
  split
  · rfl
  · show (root.data ++ '/' :: c :: t) = (root.data ++ ['/']) ++ c :: t
    rw [List.append_assoc]
    rfl

theorem slash_split : ∀ a b u v : List Char, '/' ∉ a → '/' ∉ b →
    a ++ '/' :: u = b ++ '/' :: v → a = b ∧ u = v := by
  intro a
  induction a with
  | nil =>
    intro b u v _ hb h
    cases b with
    | nil => simpa using h
    | cons y b' =>
      rw [List.nil_append, List.cons_append] at h
      obtain ⟨hy, _⟩ := List.cons.inj h
      exact absurd (hy ▸ List.mem_cons_self y b') hb
  | cons x a' ih =>
    intro b u v ha hb h
    cases b with
    | nil =>
      rw [List.nil_append, List.cons_append] at h
      obtain ⟨hy, _⟩ := List.cons.inj h
      exact absurd (hy ▸ List.mem_cons_self x a') ha
    | cons y b' =>
      rw [List.cons_append, List.cons_append] at h
      obtain ⟨hy, ht⟩ := List.cons.inj h
      have ha' : '/' ∉ a' := fun hm => ha (List.mem_cons_of_mem x hm)
      have hb' : '/' ∉ b' := fun hm => hb (List.mem_cons_of_mem y hm)
      obtain ⟨he, hu⟩ := ih b' u v ha' hb' ht
      exact ⟨by rw [hy, he], hu⟩

theorem interChars_inj : ∀ xs ys : List (List Char),
    (∀ x ∈ xs, x ≠ [] ∧ '/' ∉ x) → (∀ y ∈ ys, y ≠ [] ∧ '/' ∉ y) →
    interChars xs = interChars ys → xs = ys := by
  intro xs
  induction xs with
  | nil =>
    intro ys _ hys h
    cases ys with
    | nil => rfl
    | cons y ys' =>
      cases ys' with
      | nil =>
        rw [interChars_nil, interChars_single] at h
        exact absurd h.symm (hys y (List.mem_cons_self y _)).1
      | cons y' ys'' =>
        rw [interChars_nil, interChars_cons₂] at h
        have := congrArg List.length h
        simp at this
        omega
  | cons x xs' ih =>
    intro ys hxs hys h
    cases ys with
    | nil =>
      cases xs' with
      | nil =>
        rw [interChars_single, interChars_nil] at h
        exact absurd h (hxs x (List.mem_cons_self x _)).1
      | cons x' xs'' =>
        rw [interChars_cons₂, interChars_nil] at h
        have := congrArg List.length h
        simp at this
    | cons y ys' =>
      cases xs' with
      | nil =>
        cases ys' with
        | nil =>
          rw [interChars_single, interChars_single] at h
          rw [h]
        | cons y' ys'' =>
          rw [interChars_single, interChars_cons₂] at h
          have : '/' ∈ x := by
            rw [h]
            exact List.mem_append_right _ (List.mem_cons_self '/' _)
          exact absurd this (hxs x (List.mem_cons_self x _)).2
      | cons x' xs'' =>
        cases ys' with
        | nil =>
          rw [interChars_cons₂, interChars_single] at h
          have : '/' ∈ y := by
            rw [← h]
            exact List.mem_append_right _ (List.mem_cons_self '/' _)
          exact absurd this (hys y (List.mem_cons_self y _)).2
        | cons y' ys'' =>
          rw [interChars_cons₂, interChars_cons₂] at h
          obtain ⟨he, ht⟩ := slash_split x y _ _
            (hxs x (List.mem_cons_self x _)).2 (hys y (List.mem_cons_self y _)).2 h
          have hxs' : ∀ z ∈ x' :: xs'', z ≠ [] ∧ '/' ∉ z :=
            fun z hz => hxs z (List.mem_cons_of_mem x hz)
          have hys' : ∀ z ∈ y' :: ys'', z ≠ [] ∧ '/' ∉ z :=
            fun z hz => hys z (List.mem_cons_of_mem y hz)
          rw [he, ih (y' :: ys'') hxs' hys' ht]

theorem string_data_inj {s t : String} (h : s.data = t.data) : s = t :=
  String.ext h

/-- **C2, amended.** The flattener is injective on drive-letter-rooted
absolute source paths whose normal components are nonempty and contain no
separator: two such paths flattened under the same backup root are equal
only if their drive letters and their segment lists are equal (so two
distinct such paths — in particular two on distinct drives — always flatten
to distinct results). Across volume kinds the invariant fails, see
`flatten_collision_counterexample`. -/
theorem flatten_disk_injective (root : String) (c₁ c₂ : Char) (ns₁ ns₂ : List String)
    (h₁ : c₁ ≠ '/') (h₂ : c₂ ≠ '/')
    (v₁ : ∀ s ∈ ns₁, s.data ≠ [] ∧ '/' ∉ s.data)
    (v₂ : ∀ s ∈ ns₂, s.data ≠ [] ∧ '/' ∉ s.data)
    (heq : create_backup_file_path (diskPath c₁ ns₁) root =
      create_backup_file_path (diskPath c₂ ns₂) root) :
    c₁ = c₂ ∧ ns₁ = ns₂ := by
  rw [create_backup_file_path, create_backup_file_path, flattenSub_disk_tail,
    flattenSub_disk_tail, Option.map_some', Option.map_some'] at heq
  have hdata := congrArg String.data (Option.some.inj heq)
  rw [pathPush_cons root c₁ _ h₁, pathPush_cons root c₂ _ h₂] at hdata
  have htail := List.cons.inj (List.append_cancel_left hdata)
  refine ⟨htail.1, ?_⟩
  have ht := htail.2
  cases ns₁ with
  | nil =>
    cases ns₂ with
    | nil => rfl
    | cons s₂ rest₂ => exact absurd ht (by simp [diskTail])
  | cons s₁ rest₁ =>
    cases ns₂ with
    | nil => exact absurd ht (by simp [diskTail])
    | cons s₂ rest₂ =>
      rw [diskTail, diskTail] at ht
      have hmaps := interChars_inj _ _
        (by
          intro x hx
          rw [List.mem_map] at hx
          obtain ⟨s, hs, rfl⟩ := hx
          exact v₁ s hs)
        (by
          intro x hx
          rw [List.mem_map] at hx
          obtain ⟨s, hs, rfl⟩ := hx
          exact v₂ s hs)
        (List.cons.inj ht).2
      exact List.map_injective_iff.mpr (fun _ _ => string_data_inj) hmaps

theorem flatten_disk_injective_witness :
    create_backup_file_path (diskPath 'C' ["a"]) "E:/B" ≠
      create_backup_file_path (diskPath 'D' ["b"]) "E:/B" :=
  fun heq =>
    absurd (flatten_disk_injective "E:/B" 'C' 'D' ["a"] ["b"] (by decide) (by decide)
      (by decide) (by decide) heq).1 (by decide)

/-! ## Chunk analysis of flattened paths (helpers for claim C10) -/

/-- Left-to-right split of a character list into `'/'`-separated chunks:
`done` holds the completed chunks, `cur` the chunk being built. -/
def feed (done : List (List Char)) (cur : List Char) : List Char → List (List Char) × List Char
  | [] => (done, cur)
  | c :: rest => if c = '/' then feed (done ++ [cur]) [] rest else feed done (cur ++ [c]) rest

/-- The `'/'`-separated path components of a character list (the formal
meaning of "contains a `..` component": `['.', '.'] ∈ chunksOf l`). -/
def chunksOf (l : List Char) : List (List Char) :=
  (feed [] [] l).1 ++ [(feed [] [] l).2]

/-- A valid path-segment name: nonempty, not `.` or `..`, and containing no
separator — the names that can appear as one normal component (or UNC
host/share) of a real path. -/
def ValidSegC (l : List Char) : Prop :=
  l ≠ [] ∧ l ≠ ['.'] ∧ l ≠ ['.', '.'] ∧ '/' ∉ l

instance (l : List Char) : Decidable (ValidSegC l) := by
  unfold ValidSegC
  infer_instance

/-- Character lists that are concatenations of valid segment names —
the possible shapes of a partially built chunk. -/
inductive AtomStar : List Char → Prop
  | nil : AtomStar []
  | cons {a l : List Char} : ValidSegC a → AtomStar l → AtomStar (a ++ l)

theorem append_eq_single {x y : List Char} {c : Char} (h : x ++ y = [c]) :
    (x = [] ∧ y = [c]) ∨ (x = [c] ∧ y = []) := by
  cases x with
  | nil => exact Or.inl ⟨rfl, h⟩
  | cons a x' =>
    rw [List.cons_append] at h
    obtain ⟨ha, ht⟩ := List.cons.inj h
    obtain ⟨h1, h2⟩ := List.append_eq_nil.mp ht
    exact Or.inr ⟨by rw [ha, h1], h2⟩

theorem append_eq_pair {x y : List Char} {c d : Char} (h : x ++ y = [c, d]) :
    (x = [] ∧ y = [c, d]) ∨ (x = [c] ∧ y = [d]) ∨ (x = [c, d] ∧ y = []) := by
  cases x with
  | nil => exact Or.inl ⟨rfl, h⟩
  | cons a x' =>
    rw [List.cons_append] at h
    obtain ⟨ha, ht⟩ := List.cons.inj h
    rcases append_eq_single ht with ⟨h1, h2⟩ | ⟨h1, h2⟩
    · exact Or.inr (Or.inl ⟨by rw [ha, h1], h2⟩)
    · exact Or.inr (Or.inr ⟨by rw [ha, h1], h2⟩)

theorem atomStar_not_dots {l : List Char} (h : AtomStar l) :
    l ≠ ['.'] ∧ l ≠ ['.', '.'] := by
  induction h with
  | nil => exact ⟨by simp, by simp⟩
  | cons ha _ _ =>
    rename_i a l' _ _
    constructor
    · intro hd
      rcases append_eq_single hd with ⟨h1, _⟩ | ⟨h1, _⟩
      · exact ha.1 h1
      · exact ha.2.1 h1
    · intro hd
      rcases append_eq_pair hd with ⟨h1, _⟩ | ⟨h1, _⟩ | ⟨h1, _⟩
      · exact ha.1 h1
      · exact ha.2.1 h1
      · exact ha.2.2.1 h1

theorem atomStar_append_seg {l a : List Char} (h : AtomStar l) (ha : ValidSegC a) :
    AtomStar (l ++ a) := by
  induction h with
  | nil =>
    rw [List.nil_append, ← List.append_nil a]
    exact AtomStar.cons ha AtomStar.nil
  | cons hb _ ih =>
    rename_i b l' _
    rw [List.append_assoc]
    exact AtomStar.cons hb ih

theorem feed_append (a : List Char) : ∀ (done : List (List Char)) (cur b : List Char),
    feed done cur (a ++ b) = feed (feed done cur a).1 (feed done cur a).2 b := by
  induction a with
  | nil => intro done cur b; rfl
  | cons c rest ih =>
    intro done cur b
    rw [List.cons_append]
    by_cases hc : c = '/' <;> simp [feed, hc, ih]

theorem feed_no_slash : ∀ (a : List Char) (done : List (List Char)) (cur : List Char),
    '/' ∉ a → feed done cur a = (done, cur ++ a) := by
  intro a
  induction a with
  | nil => intro done cur _; simp [feed]
  | cons c rest ih =>
    intro done cur h
    have hc : ¬c = '/' := fun hcc => h (by rw [hcc]; exact List.mem_cons_self _ _)
    have h' : '/' ∉ rest := fun hm => h (List.mem_cons_of_mem _ hm)
    rw [show feed done cur (c :: rest) = feed done (cur ++ [c]) rest from by
      simp [feed, hc], ih done (cur ++ [c]) h', List.append_assoc]
    rfl

/-- Validity of the names inside a path prefix: alphabetic drive letters
(the only ones Rust parses into a `Disk` prefix), and host/share names that
are valid segment names after the `unwrap_or("?")` decoding. -/
def prefixOkB (p : PrefixKind) : Bool :=
  match p with
  | .disk c => c.isAlpha
  | .verbatimDisk c => c.isAlpha
  | .unc h s => decide (ValidSegC (osToStrQ h).data) && decide (ValidSegC (osToStrQ s).data)
  | .verbatimUNC h s => decide (ValidSegC (osToStrQ h).data) && decide (ValidSegC (osToStrQ s).data)
  | .verbatim _ => true
  | .deviceNS _ => true

/-- A component whose rendered name is a valid segment name. -/
def compOk (c : Component) : Bool :=
  match c with
  | .pfx p => prefixOkB p
  | .normal o =>
    match osToStr o with
    | some s => decide (ValidSegC s.data)
    | none => true
  | _ => true

def isPfx : Component → Bool
  | .pfx _ => true
  | _ => false

/-- Well-formed component list — the shape `Path::components()` actually
produces: a prefix can only be the head component, drive letters are
alphabetic, and every normal (and UNC host/share) name is a valid segment
name. -/
def wfComponents (cs : List Component) : Bool :=
  cs.all compOk && cs.tail.all (fun c => !isPfx c)

theorem alpha_ne {c : Char} (h : c.isAlpha = true) : c ≠ '.' ∧ c ≠ '/' := by
  constructor <;> intro hh <;> rw [hh] at h <;> exact absurd h (by decide)

/-- The invariant maintained while feeding a flattened path into the chunk
splitter: no completed chunk is `..`, and the pending chunk is a
concatenation of valid segment names. -/
def InvSt (st : List (List Char) × List Char) : Prop :=
  (∀ k ∈ st.1, k ≠ ['.', '.']) ∧ AtomStar st.2

theorem validSeg_single {c : Char} (h1 : c ≠ '.') (h2 : c ≠ '/') :
    ValidSegC [c] := by
  refine ⟨by simp, by simp [h1], by simp, ?_⟩
  intro hm
  rw [List.mem_singleton] at hm
  exact h2 hm.symm

theorem feed_render_inv {c : Component} {r : List Char}
    {st : List (List Char) × List Char}
    (hok : compOk c = true) (hr : renderComp c = some r) (hinv : InvSt st) :
    InvSt (feed st.1 st.2 r) := by
  obtain ⟨done, cur⟩ := st
  obtain ⟨hdone, hcur⟩ := hinv
  cases c with
  | pfx p =>
    cases p with
    | verbatim o =>
      have : r = [] := by simpa [renderComp] using hr.symm
      subst this
      exact ⟨hdone, hcur⟩
    | deviceNS o =>
      have : r = [] := by simpa [renderComp] using hr.symm
      subst this
      exact ⟨hdone, hcur⟩
    | disk ch =>
      have hrr : r = [ch] := by simpa [renderComp] using hr.symm
      subst hrr
      have halpha : ch.isAlpha = true := by simpa [compOk, prefixOkB] using hok
      obtain ⟨hd, hs⟩ := alpha_ne halpha
      rw [feed_no_slash [ch] done cur (by
        intro hm; rw [List.mem_singleton] at hm; exact hs hm.symm)]
      exact ⟨hdone, atomStar_append_seg hcur (validSeg_single hd hs)⟩
    | verbatimDisk ch =>
      have hrr : r = [ch] := by simpa [renderComp] using hr.symm
      subst hrr
      have halpha : ch.isAlpha = true := by simpa [compOk, prefixOkB] using hok
      obtain ⟨hd, hs⟩ := alpha_ne halpha
      rw [feed_no_slash [ch] done cur (by
        intro hm; rw [List.mem_singleton] at hm; exact hs hm.symm)]
      exact ⟨hdone, atomStar_append_seg hcur (validSeg_single hd hs)⟩
    | unc ho so =>
      have hrr : r = (osToStrQ ho).data ++ '/' :: (osToStrQ so).data := by
        simpa [renderComp] using hr.symm
      subst hrr
      have hok' : ValidSegC (osToStrQ ho).data ∧ ValidSegC (osToStrQ so).data := by
        simpa [compOk, prefixOkB, Bool.and_eq_true] using hok
      rw [feed_append, feed_no_slash _ done cur hok'.1.2.2.2]
      have hstep : feed done (cur ++ (osToStrQ ho).data) ('/' :: (osToStrQ so).data) =
          feed (done ++ [cur ++ (osToStrQ ho).data]) [] (osToStrQ so).data := by
        simp [feed]
      rw [hstep, feed_no_slash _ _ [] hok'.2.2.2.2]
      constructor
      · intro k hk
        rcases List.mem_append.mp hk with hk | hk
        · exact hdone k hk
        · rw [List.mem_singleton] at hk
          subst hk
          exact (atomStar_not_dots (atomStar_append_seg hcur hok'.1)).2
      · rw [List.nil_append, ← List.append_nil (osToStrQ so).data]
        exact AtomStar.cons hok'.2 AtomStar.nil
    | verbatimUNC ho so =>
      have hrr : r = (osToStrQ ho).data ++ '/' :: (osToStrQ so).data := by
        simpa [renderComp] using hr.symm
      subst hrr
      have hok' : ValidSegC (osToStrQ ho).data ∧ ValidSegC (osToStrQ so).data := by
        simpa [compOk, prefixOkB, Bool.and_eq_true] using hok
      rw [feed_append, feed_no_slash _ done cur hok'.1.2.2.2]
      have hstep : feed done (cur ++ (osToStrQ ho).data) ('/' :: (osToStrQ so).data) =
          feed (done ++ [cur ++ (osToStrQ ho).data]) [] (osToStrQ so).data := by
        simp [feed]
      rw [hstep, feed_no_slash _ _ [] hok'.2.2.2.2]
      constructor
      · intro k hk
        rcases List.mem_append.mp hk with hk | hk
        · exact hdone k hk
        · rw [List.mem_singleton] at hk
          subst hk
          exact (atomStar_not_dots (atomStar_append_seg hcur hok'.1)).2
      · rw [List.nil_append, ← List.append_nil (osToStrQ so).data]
        exact AtomStar.cons hok'.2 AtomStar.nil
  | rootDir =>
    have hrr : r = ['/'] := by simpa [renderComp] using hr.symm
    subst hrr
    have hstep : feed done cur ['/'] = (done ++ [cur], []) := by
      simp [feed]
    rw [hstep]
    constructor
    · intro k hk
      rcases List.mem_append.mp hk with hk | hk
      · exact hdone k hk
      · rw [List.mem_singleton] at hk
        subst hk
        exact (atomStar_not_dots hcur).2
    · exact AtomStar.nil
  | curDir =>
    have hrr : r = "unknown".data := by simpa [renderComp] using hr.symm
    subst hrr
    rw [feed_no_slash _ done cur (by decide)]
    exact ⟨hdone, atomStar_append_seg hcur (by decide)⟩
  | parentDir =>
    have hrr : r = "unknown".data := by simpa [renderComp] using hr.symm
    subst hrr
    rw [feed_no_slash _ done cur (by decide)]
    exact ⟨hdone, atomStar_append_seg hcur (by decide)⟩
  | normal o =>
    cases o with
    | invalid => exact absurd hr (by simp [renderComp, osToStr])
    | valid s =>
      have hrr : r = s.data ++ ['/'] := by simpa [renderComp, osToStr] using hr.symm
      subst hrr
      have hseg : ValidSegC s.data := by
        simpa [compOk, osToStr] using hok
      rw [feed_append, feed_no_slash _ done cur hseg.2.2.2]
      have hstep : feed done (cur ++ s.data) ['/'] = (done ++ [cur ++ s.data], []) := by
        simp [feed]
      rw [hstep]
      constructor
      · intro k hk
        rcases List.mem_append.mp hk with hk | hk
        · exact hdone k hk
        · rw [List.mem_singleton] at hk
          subst hk
          exact (atomStar_not_dots (atomStar_append_seg hcur hseg)).2
      · exact AtomStar.nil

theorem inv_renderAll : ∀ (cs : List Component) (st : List (List Char) × List Char)
    (j : List Char), (∀ c ∈ cs, compOk c = true) → renderAll cs = some j → InvSt st →
    InvSt (feed st.1 st.2 j) := by
  intro cs
  induction cs with
  | nil =>
    intro st j _ hj hinv
    have : j = [] := by simpa [renderAll] using hj.symm
    subst this
    simpa [feed] using hinv
  | cons c rest ih =>
    intro st j hok hj hinv
    cases hr : renderComp c with
    | none => simp [renderAll, hr] at hj
    | some r =>
      cases hrest : renderAll rest with
      | none => simp [renderAll, hr, hrest] at hj
      | some jr =>
        simp only [renderAll, hr, hrest] at hj
        have : j = r ++ jr := by simpa using hj.symm
        subst this
        rw [feed_append]
        have hst1 := feed_render_inv (hok c (List.mem_cons_self c rest)) hr hinv
        exact ih _ jr (fun y hy => hok y (List.mem_cons_of_mem c hy)) hrest hst1

theorem renderAll_append_last (cs : List Component) (x : Component) :
    renderAll (cs ++ [x]) =
      (renderAll cs).bind (fun j => (renderComp x).map (fun r => j ++ r)) := by
  induction cs with
  | nil => cases hx : renderComp x <;> simp [renderAll, hx]
  | cons c rest ih =>
    rw [List.cons_append]
    cases hc : renderComp c with
    | none => simp [renderAll, hc]
    | some r =>
      cases hrest : renderAll rest with
      | none => simp [renderAll, hc, hrest, ih]
      | some jr =>
        cases hx : renderComp x with
        | none => simp [renderAll, hc, hrest, ih, hx]
        | some rx => simp [renderAll, hc, hrest, ih, hx, List.append_assoc]

/-! ## Claim C10 -/

/-- **C10, counterexample.** The claim's consequence "the flattened path
always lies under the backup root" is false: for the root-relative source
path `/a/../b` (which contains a `..` component), the flattened `sub_path`
begins with the separator, so `PathBuf::push` replaces the backup root
(keeping only its drive prefix) instead of extending it — the result is not
below `C:/Backup`. -/
theorem flatten_dot_escape_counterexample :
    create_backup_file_path [.rootDir, mkNormal "a", .parentDir, mkNormal "b"]
        "C:/Backup" = some "C:/a/unknownb" ∧
    ¬ ("C:/Backup".data <+: ("C:/a/unknownb").data) := by
  decide

/-- **C10, amended.** For every well-formed source path containing a
current-directory or parent-directory component, the flattener renders that
component as the literal text `unknown` with no following separator, and
the flattened `sub_path` never contains a `..` component; the full result
extends the backup root (`root ++ '/' ++ sub_path`) whenever the
`sub_path` is nonempty and does not itself begin with the separator (a
root-led `sub_path` instead replaces everything but the root's drive
prefix, see the counterexample). -/
theorem flatten_dot_components (cs : List Component) (root : String) (sub : List Char)
    (hwf : wfComponents cs = true)
    (hdot : Component.curDir ∈ cs ∨ Component.parentDir ∈ cs)
    (hsub : flattenSubChars cs = some sub) :
    renderComp .curDir = some "unknown".data ∧
    renderComp .parentDir = some "unknown".data ∧
    ['.', '.'] ∉ chunksOf sub ∧
    (root.data ≠ [] → root.data.getLast? ≠ some '/' → sub ≠ [] →
      sub.head? ≠ some '/' →
      create_backup_file_path cs root = some ⟨root.data ++ '/' :: sub⟩) := by
  refine ⟨rfl, rfl, ?_, ?_⟩
  · have hne : cs ≠ [] := by
      rcases hdot with h | h <;> exact List.ne_nil_of_mem h
    obtain ⟨cs', x, hcs⟩ : ∃ cs' x, cs = cs' ++ [x] :=
      ⟨cs.dropLast, cs.getLast hne, (List.dropLast_append_getLast hne).symm⟩
    subst hcs
    have hwf2 := hwf
    rw [wfComponents, Bool.and_eq_true] at hwf2
    have hall : ∀ c ∈ cs' ++ [x], compOk c = true :=
      fun c hc => List.all_eq_true.mp hwf2.1 c hc
    have hallcs' : ∀ c ∈ cs', compOk c = true :=
      fun c hc => hall c (List.mem_append_left _ hc)
    rw [flattenSubChars, renderAll_append_last] at hsub
    cases hra : renderAll cs' with
    | none => rw [hra] at hsub; simp at hsub
    | some j' =>
      rw [hra] at hsub
      cases hrx : renderComp x with
      | none => rw [hrx] at hsub; simp at hsub
      | some r =>
        rw [hrx] at hsub
        simp only [Option.bind_some, Option.map_some', Option.map_map] at hsub
        have hsub' : sub = (j' ++ r).dropLast := by simpa using hsub.symm
        subst hsub'
        have hst1 : InvSt (feed [] [] j') :=
          inv_renderAll cs' ([], []) j' hallcs' hra ⟨by simp, AtomStar.nil⟩
        cases x with
        | pfx p =>
          cases cs' with
          | nil =>
            rcases hdot with h | h <;> simp at h
          | cons c0 cs'' =>
            have htail := hwf2.2
            have hx : Component.pfx p ∈ (c0 :: (cs'' ++ [Component.pfx p])).tail :=
              List.mem_append_right _ (List.mem_cons_self _ _)
            have := List.all_eq_true.mp htail _ hx
            simp [isPfx] at this
        | rootDir =>
          have hr' : r = ['/'] := by simpa [renderComp] using hrx.symm
          subst hr'
          have hdl : (j' ++ ['/']).dropLast = j' := by simp
          rw [hdl]
          unfold chunksOf
          intro hmem
          rcases List.mem_append.mp hmem with hk | hk
          · exact hst1.1 _ hk rfl
          · rw [List.mem_singleton] at hk
            exact (atomStar_not_dots hst1.2).2 hk.symm
        | curDir =>
          have hr' : r = "unknown".data := by simpa [renderComp] using hrx.symm
          subst hr'
          have hu : ("unknown".data : List Char) = "unknow".data ++ ['n'] := rfl
          have hdl : (j' ++ "unknown".data).dropLast = j' ++ "unknow".data := by
            rw [hu, ← List.append_assoc]
            simp
          rw [hdl]
          unfold chunksOf
          rw [feed_append, feed_no_slash _ _ _ (by decide)]
          intro hmem
          rcases List.mem_append.mp hmem with hk | hk
          · exact hst1.1 _ hk rfl
          · rw [List.mem_singleton] at hk
            have := congrArg List.length hk.symm
            have h6 : ("unknow".data : List Char).length = 6 := rfl
            simp [h6] at this
        | parentDir =>
          have hr' : r = "unknown".data := by simpa [renderComp] using hrx.symm
          subst hr'
          have hu : ("unknown".data : List Char) = "unknow".data ++ ['n'] := rfl
          have hdl : (j' ++ "unknown".data).dropLast = j' ++ "unknow".data := by
            rw [hu, ← List.append_assoc]
            simp
          rw [hdl]
          unfold chunksOf
          rw [feed_append, feed_no_slash _ _ _ (by decide)]
          intro hmem
          rcases List.mem_append.mp hmem with hk | hk
          · exact hst1.1 _ hk rfl
          · rw [List.mem_singleton] at hk
            have := congrArg List.length hk.symm
            have h6 : ("unknow".data : List Char).length = 6 := rfl
            simp [h6] at this
        | normal o =>
          cases o with
          | invalid => simp [renderComp, osToStr] at hrx
          | valid s =>
            have hr' : r = s.data ++ ['/'] := by
              simpa [renderComp, osToStr] using hrx.symm
            subst hr'
            have hseg : ValidSegC s.data := by
              simpa [compOk, osToStr] using
                hall _ (List.mem_append_right _ (List.mem_cons_self _ _))
            have hdl : (j' ++ (s.data ++ ['/'])).dropLast = j' ++ s.data := by
              rw [← List.append_assoc]
              simp
            rw [hdl]
            unfold chunksOf
            rw [feed_append, feed_no_slash _ _ _ hseg.2.2.2]
            intro hmem
            rcases List.mem_append.mp hmem with hk | hk
            · exact hst1.1 _ hk rfl
            · rw [List.mem_singleton] at hk
              exact (atomStar_not_dots (atomStar_append_seg hst1.2 hseg)).2 hk.symm
  · intro hr1 hr2 hs1 hs2
    rw [create_backup_file_path, hsub, Option.map_some']
    have e1 : ¬((String.mk sub).data = []) := hs1
    have e2 : ¬((String.mk sub).data.head? = some '/') := hs2
    have e3 : ¬(root.data = [] ∨ root.data.getLast? = some '/') := fun h => h.elim hr1 hr2
    unfold pathPush
    rw [if_neg e1, if_neg e2, if_neg e3]

theorem flatten_dot_components_witness :
    renderComp .curDir = some "unknown".data ∧
    renderComp .parentDir = some "unknown".data ∧
    ['.', '.'] ∉ chunksOf "C/a/unknownb".data ∧
    (("D:/B").data ≠ [] → ("D:/B").data.getLast? ≠ some '/' →
      ("C/a/unknownb").data ≠ [] → ("C/a/unknownb").data.head? ≠ some '/' →
      create_backup_file_path
          [.pfx (.disk 'C'), .rootDir, mkNormal "a", .parentDir, mkNormal "b"]
          "D:/B" = some ⟨("D:/B").data ++ '/' :: ("C/a/unknownb").data⟩) :=
  flatten_dot_components
    [.pfx (.disk 'C'), .rootDir, mkNormal "a", .parentDir, mkNormal "b"]
    "D:/B" ("C/a/unknownb").data (by decide) (Or.inr (by decide)) (by decide)
